import Mathlib

/-!
# Lexical scanner of `lab4,5/twoBUffer.cpp`

A shallow embedding of `MainForm::Tokenize` (lines 66-114 of the source) and of
the C character classification functions it calls, followed by the properties of
the scanner.

Modelling decisions.

* A `std::string` is a `List Byte` with `Byte = UInt8`: the unsigned value of each
  `char` of the buffer.
* `isspace`, `isalpha`, `isdigit`, `isalnum` are the `<cctype>` functions in the
  default "C" locale (the program never calls `setlocale`), read on the value of the
  byte: only ASCII characters are classified, a byte of value 128 or more is in no
  class.
* The `for` loop and the two inner `while` loops are recursive functions on the loop
  state `(i, token, tokens)`.  Each carries a fuel argument that bounds the number of
  iterations; a run that exhausts its fuel, or reads `input[k]` with `k` out of
  bounds, yields `none`.  `Tokenize` supplies `input.length` as fuel to every loop.
-/

namespace Lexer

/-- One `char` of the input buffer, as the value of its byte. -/
abbrev Byte := UInt8

/-- A token: the `std::string` pushed to `tokens`. -/
abbrev Token := List Byte

/-- The character `'_'`. -/
def underscore : Byte := 95

/-- The function `isspace` of `<cctype>`, "C" locale: space, `\t`, `\n`, `\v`, `\f`,
`\r`. -/
def isspace (c : Byte) : Bool :=
  c.toNat == 32 || (9 ≤ c.toNat && c.toNat ≤ 13)

/-- The function `isdigit` of `<cctype>`: `'0'` to `'9'`. -/
def isdigit (c : Byte) : Bool :=
  48 ≤ c.toNat && c.toNat ≤ 57

/-- The function `isalpha` of `<cctype>`, "C" locale: `'A'` to `'Z'` and `'a'` to `'z'`. -/
def isalpha (c : Byte) : Bool :=
  (65 ≤ c.toNat && c.toNat ≤ 90) || (97 ≤ c.toNat && c.toNat ≤ 122)

/-- The function `isalnum` of `<cctype>`: `isalpha` or `isdigit`. -/
def isalnum (c : Byte) : Bool :=
  isalpha c || isdigit c

/-- Guard of the `if` of line 82: `isalpha(ch) || ch == '_'`. -/
def isWordStart (ch : Byte) : Bool :=
  isalpha ch || ch == underscore

/-- Second conjunct of the `while` of line 84: `isalnum(c) || c == '_'`. -/
def isWordChar (c : Byte) : Bool :=
  isalnum c || c == underscore

/-- The inner loops of lines 84-86 and 95-97, for the predicate `p` of their guard:
`while (i + 1 < input.length() && p(input[i + 1])) token += input[++i];`.
Returns the values of `i` and `token` at loop exit. -/
def whileLoop (p : Byte → Bool) (input : List Byte) :
    Nat → Nat → List Byte → Option (Nat × List Byte)
  | fuel, i, token =>
    if i + 1 < input.length then do
      let c ← input[i + 1]?
      if p c then
        match fuel with
        | 0 => none
        | f + 1 => do
          let d ← input[i + 1]?
          whileLoop p input f (i + 1) (token ++ [d])
      else pure (i, token)
    else pure (i, token)

/-- The local variables of `Tokenize` that live across iterations of the `for` loop. -/
structure LoopState where
  /-- The cursor `i`. -/
  i : Nat
  /-- The accumulator `token`. -/
  token : List Byte
  /-- The result vector `tokens`. -/
  tokens : List Token
deriving DecidableEq

/-- The body of the `for` loop (lines 70-106), from `char ch = input[i]` to the point
where control reaches the increment `++i` (by `continue` or by falling off the end). -/
def loopBody (input : List Byte) (st : LoopState) : Option LoopState := do
  let ch ← input[st.i]?
  if isspace ch then
    if !st.token.isEmpty then
      pure { st with tokens := st.tokens ++ [st.token], token := [] }
    else
      pure st
  else if isWordStart ch then
    let r ← whileLoop isWordChar input input.length st.i (st.token ++ [ch])
    pure { i := r.1, token := [], tokens := st.tokens ++ [r.2] }
  else if isdigit ch then
    let r ← whileLoop isdigit input input.length st.i (st.token ++ [ch])
    pure { i := r.1, token := [], tokens := st.tokens ++ [r.2] }
  else
    pure { st with token := [], tokens := st.tokens ++ [st.token ++ [ch]] }

/-- The loop `for (size_t i = 0; i < input.length(); ++i) { ... }` of lines 69-107,
started in state `st`; returns the state at loop exit. -/
def forLoop (input : List Byte) : Nat → LoopState → Option LoopState
  | fuel, st =>
    if st.i < input.length then
      match fuel with
      | 0 => none
      | f + 1 => do
        let st1 ← loopBody input st
        forLoop input f { st1 with i := st1.i + 1 }
    else pure st

/-- The function `MainForm::Tokenize` (lines 66-114): run the loop from `i = 0` with
empty `token` and `tokens`, then flush a non-empty `token` (lines 109-111) and return
`tokens`. -/
def Tokenize (input : List Byte) : Option (List Token) := do
  let st ← forLoop input input.length { i := 0, token := [], tokens := [] }
  if !st.token.isEmpty then
    pure (st.tokens ++ [st.token])
  else
    pure st.tokens

/-- The bytes of a string literal, for writing inputs and tokens readably. -/
def bytes (s : String) : List Byte :=
  s.toList.map fun c => c.toNat.toUInt8

/-- The six whitespace characters: space, `\t`, `\n`, `\v`, `\f`, `\r`. -/
def whitespace : List Byte := [32, 9, 10, 11, 12, 13]

/-- Word shape: the first character is a letter or `'_'`, and every character is a
letter, a digit or `'_'`. -/
def isWord (t : Token) : Bool :=
  match t with
  | [] => false
  | c :: _ =>
    (isalpha c || c == underscore) &&
      t.all fun x => isalpha x || isdigit x || x == underscore

/-- Number shape: one or more characters, all decimal digits. -/
def isNumber (t : Token) : Bool :=
  !t.isEmpty && t.all isdigit

/-- Symbol shape: exactly one character, which is not whitespace, not alphanumeric and
not `'_'`. -/
def isSymbol (t : Token) : Bool :=
  match t with
  | [c] => !whitespace.contains c && !(isalpha c || isdigit c) && c != underscore
  | _ => false

/-- A character that is not whitespace, not a letter, not a digit and not `'_'`. -/
def isSymbolChar (c : Byte) : Bool :=
  !whitespace.contains c && !isalpha c && !isdigit c && c != underscore

/-- The scan in functional form, on the part of the input to the right of the cursor:
what one pass of the `for` loop appends to `tokens` when it starts with an empty
`token`.  It states the loop invariant of `forLoop`. -/
def scan : List Byte → List Token
  | [] => []
  | c :: rest =>
    if isspace c then scan rest
    else if isWordStart c then
      (c :: rest.takeWhile isWordChar) :: scan (rest.dropWhile isWordChar)
    else if isdigit c then
      (c :: rest.takeWhile isdigit) :: scan (rest.dropWhile isdigit)
    else [c] :: scan rest
termination_by l => l.length
decreasing_by
  all_goals simp_wf
  all_goals first
    | omega
    | exact Nat.lt_succ_of_le (List.dropWhile_sublist _).length_le

/-- The state in which `Tokenize` enters the `for` loop: `i = 0`, `token` and `tokens`
empty. -/
def initState : LoopState :=
  { i := 0, token := [], tokens := [] }

/-- The state of the `for` loop after `n` complete iterations (body, then `++i`) from the
state `st`: the state in which the guard `i < input.length()` is tested for the
`n + 1`-th time.  It is `none` if the loop has exited before, or if an iteration does not
complete. -/
def loopIter (input : List Byte) : Nat → LoopState → Option LoopState
  | 0, st => some st
  | n + 1, st =>
    if st.i < input.length then do
      let st1 ← loopBody input st
      loopIter input n { st1 with i := st1.i + 1 }
    else none

/-- The body of the `for` loop with the flush of lines 74-77 removed: the whitespace
branch is `if (isspace(ch)) continue;`, the other branches are those of `loopBody`. -/
def loopBodyNoFlush (input : List Byte) (st : LoopState) : Option LoopState := do
  let ch ← input[st.i]?
  if isspace ch then
    pure st
  else if isWordStart ch then
    let r ← whileLoop isWordChar input input.length st.i (st.token ++ [ch])
    pure { i := r.1, token := [], tokens := st.tokens ++ [r.2] }
  else if isdigit ch then
    let r ← whileLoop isdigit input input.length st.i (st.token ++ [ch])
    pure { i := r.1, token := [], tokens := st.tokens ++ [r.2] }
  else
    pure { st with token := [], tokens := st.tokens ++ [st.token ++ [ch]] }

/-- The `for` loop over `loopBodyNoFlush`. -/
def forLoopNoFlush (input : List Byte) : Nat → LoopState → Option LoopState
  | fuel, st =>
    if st.i < input.length then
      match fuel with
      | 0 => none
      | f + 1 => do
        let st1 ← loopBodyNoFlush input st
        forLoopNoFlush input f { st1 with i := st1.i + 1 }
    else pure st

/-- The function `Tokenize` with both flushes removed: the one of the whitespace branch
(lines 74-77) and the one after the loop (lines 109-111). -/
def TokenizeNoFlush (input : List Byte) : Option (List Token) := do
  let st ← forLoopNoFlush input input.length { i := 0, token := [], tokens := [] }
  pure st.tokens

/-! ## Character classes -/

theorem isWordChar_of_isWordStart (c : Byte) (h : isWordStart c = true) :
    isWordChar c = true := by
  simp only [isWordStart, isWordChar, isalnum, Bool.or_eq_true] at *
  tauto

theorem isWordChar_of_isdigit (c : Byte) (h : isdigit c = true) : isWordChar c = true := by
  simp only [isWordChar, isalnum, Bool.or_eq_true] at *
  tauto

theorem isspace_of_isWordChar (c : Byte) (h : isWordChar c = true) : isspace c = false := by
  by_cases hu : c = underscore
  · subst hu; decide
  · simp only [isWordChar, isalnum, isalpha, isdigit, Bool.or_eq_true, Bool.and_eq_true,
      decide_eq_true_eq, beq_iff_eq, hu, or_false] at h
    simp only [isspace, Bool.or_eq_false_iff, Bool.and_eq_false_iff, beq_eq_false_iff_ne,
      decide_eq_false_iff_not]
    omega

theorem isWordStart_of_isdigit (c : Byte) (h : isdigit c = true) : isWordStart c = false := by
  by_cases hu : c = underscore
  · subst hu; revert h; decide
  · simp only [isdigit, Bool.and_eq_true, decide_eq_true_eq] at h
    simp only [isWordStart, isalpha, Bool.or_eq_false_iff, Bool.and_eq_false_iff,
      beq_eq_false_iff_ne, decide_eq_false_iff_not]
    refine ⟨?_, hu⟩
    omega

theorem isspace_iff (c : Byte) :
    isspace c = true ↔ c = 32 ∨ c = 9 ∨ c = 10 ∨ c = 11 ∨ c = 12 ∨ c = 13 := by
  constructor
  · intro h
    simp only [isspace, Bool.or_eq_true, Bool.and_eq_true, decide_eq_true_eq, beq_iff_eq] at h
    have : c.toNat = 32 ∨ c.toNat = 9 ∨ c.toNat = 10 ∨ c.toNat = 11 ∨ c.toNat = 12 ∨
        c.toNat = 13 := by omega
    rcases this with e | e | e | e | e | e
    · exact Or.inl (UInt8.ext e)
    · exact Or.inr (Or.inl (UInt8.ext e))
    · exact Or.inr (Or.inr (Or.inl (UInt8.ext e)))
    · exact Or.inr (Or.inr (Or.inr (Or.inl (UInt8.ext e))))
    · exact Or.inr (Or.inr (Or.inr (Or.inr (Or.inl (UInt8.ext e)))))
    · exact Or.inr (Or.inr (Or.inr (Or.inr (Or.inr (UInt8.ext e)))))
  · intro h
    rcases h with h | h | h | h | h | h
    all_goals (rw [h]; decide)

/-! ## The loops compute `scan` -/

theorem scan_nil : scan [] = [] := by
  rw [scan]

theorem scan_cons_space (c : Byte) (rest : List Byte) (h : isspace c = true) :
    scan (c :: rest) = scan rest := by
  rw [scan]; simp [h]

theorem scan_cons_word (c : Byte) (rest : List Byte) (h1 : isspace c = false)
    (h2 : isWordStart c = true) :
    scan (c :: rest) =
      (c :: rest.takeWhile isWordChar) :: scan (rest.dropWhile isWordChar) := by
  rw [scan]; simp [h1, h2]

theorem scan_cons_digit (c : Byte) (rest : List Byte) (h1 : isspace c = false)
    (h2 : isWordStart c = false) (h3 : isdigit c = true) :
    scan (c :: rest) =
      (c :: rest.takeWhile isdigit) :: scan (rest.dropWhile isdigit) := by
  rw [scan]; simp [h1, h2, h3]

theorem scan_cons_symbol (c : Byte) (rest : List Byte) (h1 : isspace c = false)
    (h2 : isWordStart c = false) (h3 : isdigit c = false) :
    scan (c :: rest) = [c] :: scan rest := by
  rw [scan]; simp [h1, h2, h3]

theorem whileLoop_eq (p : Byte → Bool) (rest : List Byte) :
    ∀ (pre : List Byte) (c0 : Byte) (token : List Byte) (fuel : Nat),
      (rest.takeWhile p).length ≤ fuel →
      whileLoop p (pre ++ c0 :: rest) fuel pre.length token =
        some (pre.length + (rest.takeWhile p).length, token ++ rest.takeWhile p) := by
  induction rest with
  | nil =>
    intro pre c0 token fuel _
    unfold whileLoop
    simp
  | cons d r ih =>
    intro pre c0 token fuel hfuel
    have hget : (pre ++ c0 :: d :: r)[pre.length + 1]? = some d := by
      have : pre ++ c0 :: d :: r = (pre ++ [c0]) ++ d :: r := by simp
      rw [this, List.getElem?_append_right (by simp)]
      simp
    unfold whileLoop
    by_cases hp : p d = true
    · rw [List.takeWhile_cons_of_pos hp] at hfuel ⊢
      cases fuel with
      | zero => simp at hfuel
      | succ f =>
        have hlt : pre.length + 1 < (pre ++ c0 :: d :: r).length := by simp
        have e : pre ++ c0 :: d :: r = (pre ++ [c0]) ++ d :: r := by simp
        have ih1 := ih (pre ++ [c0]) d (token ++ [d]) f (by simpa using hfuel)
        simp only [List.length_append, List.length_singleton] at ih1
        simp only [hlt, if_true, hget, Option.bind_eq_bind, Option.some_bind, hp]
        rw [e, ih1]
        simp only [List.length_cons, List.append_assoc, List.singleton_append, Option.some.injEq,
          Prod.mk.injEq, and_true]
        omega
    · have hlt : pre.length + 1 < (pre ++ c0 :: d :: r).length := by simp
      rw [List.takeWhile_cons_of_neg hp]
      simp [hlt, hget, hp]

theorem getElem?_length_append_cons (pre : List Byte) (c : Byte) (rest : List Byte) :
    (pre ++ c :: rest)[pre.length]? = some c := by
  rw [List.getElem?_append_right (Nat.le_refl _)]
  simp

theorem loopBody_of_getElem? (input : List Byte) (st : LoopState) (ch : Byte)
    (h : input[st.i]? = some ch) :
    loopBody input st =
      if isspace ch then
        if !st.token.isEmpty then
          some { st with tokens := st.tokens ++ [st.token], token := [] }
        else
          some st
      else if isWordStart ch then
        (whileLoop isWordChar input input.length st.i (st.token ++ [ch])).bind fun r =>
          some { i := r.1, token := [], tokens := st.tokens ++ [r.2] }
      else if isdigit ch then
        (whileLoop isdigit input input.length st.i (st.token ++ [ch])).bind fun r =>
          some { i := r.1, token := [], tokens := st.tokens ++ [r.2] }
      else
        some { st with token := [], tokens := st.tokens ++ [st.token ++ [ch]] } := by
  unfold loopBody
  rw [h]
  rfl

theorem loopBody_space (pre : List Byte) (c : Byte) (rest : List Byte) (acc : List Token)
    (h : isspace c = true) :
    loopBody (pre ++ c :: rest) { i := pre.length, token := [], tokens := acc } =
      some { i := pre.length, token := [], tokens := acc } := by
  rw [loopBody_of_getElem? _ _ c (getElem?_length_append_cons pre c rest)]
  simp [h]

theorem loopBody_word (pre : List Byte) (c : Byte) (rest : List Byte) (acc : List Token)
    (h1 : isspace c = false) (h2 : isWordStart c = true) :
    loopBody (pre ++ c :: rest) { i := pre.length, token := [], tokens := acc } =
      some { i := pre.length + (rest.takeWhile isWordChar).length, token := [],
             tokens := acc ++ [c :: rest.takeWhile isWordChar] } := by
  have hw := whileLoop_eq isWordChar rest pre c [c] (pre ++ c :: rest).length
    (by
      have := (List.takeWhile_sublist isWordChar (l := rest)).length_le
      simp only [List.length_append, List.length_cons]; omega)
  rw [loopBody_of_getElem? _ _ c (getElem?_length_append_cons pre c rest)]
  simp only [h1, h2, List.nil_append, hw]
  simp

theorem loopBody_digit (pre : List Byte) (c : Byte) (rest : List Byte) (acc : List Token)
    (h1 : isspace c = false) (h2 : isWordStart c = false) (h3 : isdigit c = true) :
    loopBody (pre ++ c :: rest) { i := pre.length, token := [], tokens := acc } =
      some { i := pre.length + (rest.takeWhile isdigit).length, token := [],
             tokens := acc ++ [c :: rest.takeWhile isdigit] } := by
  have hw := whileLoop_eq isdigit rest pre c [c] (pre ++ c :: rest).length
    (by
      have := (List.takeWhile_sublist isdigit (l := rest)).length_le
      simp only [List.length_append, List.length_cons]; omega)
  rw [loopBody_of_getElem? _ _ c (getElem?_length_append_cons pre c rest)]
  simp only [h1, h2, h3, List.nil_append, hw]
  simp

theorem loopBody_symbol (pre : List Byte) (c : Byte) (rest : List Byte) (acc : List Token)
    (h1 : isspace c = false) (h2 : isWordStart c = false) (h3 : isdigit c = false) :
    loopBody (pre ++ c :: rest) { i := pre.length, token := [], tokens := acc } =
      some { i := pre.length, token := [], tokens := acc ++ [[c]] } := by
  rw [loopBody_of_getElem? _ _ c (getElem?_length_append_cons pre c rest)]
  simp [h1, h2, h3]

theorem forLoop_step (input : List Byte) (f : Nat) (st st1 : LoopState)
    (hlt : st.i < input.length) (hb : loopBody input st = some st1) :
    forLoop input (f + 1) st = forLoop input f { st1 with i := st1.i + 1 } := by
  rw [forLoop]
  simp [hlt, hb]

theorem forLoop_exit (input : List Byte) (fuel : Nat) (st : LoopState)
    (h : ¬ st.i < input.length) : forLoop input fuel st = some st := by
  unfold forLoop
  simp [h]

/-- Loop invariant of the `for` loop: started at cursor `pre.length` with an empty
`token`, the loop ends at the end of the input with an empty `token`, having appended
`scan suf` to `tokens`. -/
theorem forLoop_eq (fuel : Nat) :
    ∀ (suf pre : List Byte) (acc : List Token), suf.length ≤ fuel →
      forLoop (pre ++ suf) fuel { i := pre.length, token := [], tokens := acc } =
        some { i := (pre ++ suf).length, token := [], tokens := acc ++ scan suf } := by
  induction fuel with
  | zero =>
    intro suf pre acc h
    have : suf = [] := List.length_eq_zero.mp (Nat.le_zero.mp h)
    subst this
    rw [forLoop_exit _ _ _ (by simp), scan_nil]
    simp
  | succ f ih =>
    intro suf pre acc h
    cases suf with
    | nil =>
      rw [forLoop_exit _ _ _ (by simp), scan_nil]
      simp
    | cons c rest =>
      have hlt : pre.length < (pre ++ c :: rest).length := by simp
      have hrest : rest.length ≤ f := by simpa using h
      by_cases h1 : isspace c = true
      · rw [forLoop_step _ f _ _ hlt (loopBody_space pre c rest acc h1),
          scan_cons_space c rest h1]
        have := ih rest (pre ++ [c]) acc hrest
        simpa using this
      · have h1 : isspace c = false := by simpa using h1
        by_cases h2 : isWordStart c = true
        · rw [forLoop_step _ f _ _ hlt (loopBody_word pre c rest acc h1 h2),
            scan_cons_word c rest h1 h2]
          have hd : (rest.dropWhile isWordChar).length ≤ f :=
            Nat.le_trans (List.dropWhile_sublist _).length_le hrest
          have := ih (rest.dropWhile isWordChar) (pre ++ c :: rest.takeWhile isWordChar)
            (acc ++ [c :: rest.takeWhile isWordChar]) hd
          simpa [Nat.add_assoc] using this
        · have h2 : isWordStart c = false := by simpa using h2
          by_cases h3 : isdigit c = true
          · rw [forLoop_step _ f _ _ hlt (loopBody_digit pre c rest acc h1 h2 h3),
              scan_cons_digit c rest h1 h2 h3]
            have hd : (rest.dropWhile isdigit).length ≤ f :=
              Nat.le_trans (List.dropWhile_sublist _).length_le hrest
            have := ih (rest.dropWhile isdigit) (pre ++ c :: rest.takeWhile isdigit)
              (acc ++ [c :: rest.takeWhile isdigit]) hd
            simpa [Nat.add_assoc] using this
          · have h3 : isdigit c = false := by simpa using h3
            rw [forLoop_step _ f _ _ hlt (loopBody_symbol pre c rest acc h1 h2 h3),
              scan_cons_symbol c rest h1 h2 h3]
            have := ih rest (pre ++ [c]) (acc ++ [[c]]) hrest
            simpa using this

/-- The scanner returns on every input, and what it returns is `scan input`. -/
theorem Tokenize_eq_scan (input : List Byte) : Tokenize input = some (scan input) := by
  have h := forLoop_eq input.length input [] [] (Nat.le_refl _)
  simp only [List.nil_append, List.length_nil] at h
  simp [Tokenize, h]

/-! ## Properties of `scan` -/

theorem mem_whitespace_iff (c : Byte) :
    whitespace.contains c = true ↔ c = 32 ∨ c = 9 ∨ c = 10 ∨ c = 11 ∨ c = 12 ∨ c = 13 := by
  simp only [whitespace, List.elem_eq_mem, List.mem_cons, List.mem_singleton, Bool.decide_or,
    Bool.or_eq_true, decide_eq_true_eq, List.not_mem_nil, or_false]

theorem isspace_eq_contains (c : Byte) : isspace c = whitespace.contains c := by
  rw [Bool.eq_iff_iff, isspace_iff, mem_whitespace_iff]

theorem isWordChar_eq (c : Byte) :
    isWordChar c = (isalpha c || isdigit c || c == underscore) := rfl

theorem isSymbolChar_iff (c : Byte) :
    isSymbolChar c = true ↔ isspace c = false ∧ isWordStart c = false ∧ isdigit c = false := by
  simp only [isSymbolChar, ← isspace_eq_contains, isWordStart, Bool.and_eq_true,
    Bool.not_eq_true', bne_iff_ne, ne_eq, Bool.or_eq_false_iff, beq_eq_false_iff_ne]
  tauto

theorem takeWhile_append_of_all (p : Byte → Bool) (r rest : List Byte)
    (hr : ∀ x ∈ r, p x = true) (hrest : ∀ c ∈ rest.head?, p c = false) :
    (r ++ rest).takeWhile p = r := by
  induction r with
  | nil =>
    cases rest with
    | nil => rfl
    | cons c t =>
      have : p c = false := hrest c (by simp)
      simp [List.takeWhile_cons, this]
  | cons a r ih =>
    have ha : p a = true := hr a (by simp)
    have := ih (fun x hx => hr x (by simp [hx]))
    simp [List.takeWhile_cons, ha, this]

theorem dropWhile_append_of_all (p : Byte → Bool) (r rest : List Byte)
    (hr : ∀ x ∈ r, p x = true) (hrest : ∀ c ∈ rest.head?, p c = false) :
    (r ++ rest).dropWhile p = rest := by
  induction r with
  | nil =>
    cases rest with
    | nil => rfl
    | cons c t =>
      have : p c = false := hrest c (by simp)
      simp [List.dropWhile_cons, this]
  | cons a r ih =>
    have ha : p a = true := hr a (by simp)
    have := ih (fun x hx => hr x (by simp [hx]))
    simp [List.dropWhile_cons, ha, this]

/-- A word followed by a non-word character (or by nothing) is scanned as one token. -/
theorem scan_word_append (c : Byte) (r rest : List Byte) (hc : isWordStart c = true)
    (hr : ∀ x ∈ r, isWordChar x = true) (hrest : ∀ x ∈ rest.head?, isWordChar x = false) :
    scan (c :: r ++ rest) = (c :: r) :: scan rest := by
  have hs : isspace c = false := isspace_of_isWordChar c (isWordChar_of_isWordStart c hc)
  rw [List.cons_append, scan_cons_word c (r ++ rest) hs hc,
    takeWhile_append_of_all isWordChar r rest hr hrest,
    dropWhile_append_of_all isWordChar r rest hr hrest]

/-- A digit run followed by a non-digit (or by nothing) is scanned as one token. -/
theorem scan_number_append (c : Byte) (r rest : List Byte) (hc : isdigit c = true)
    (hr : ∀ x ∈ r, isdigit x = true) (hrest : ∀ x ∈ rest.head?, isdigit x = false) :
    scan (c :: r ++ rest) = (c :: r) :: scan rest := by
  have hs : isspace c = false := isspace_of_isWordChar c (isWordChar_of_isdigit c hc)
  rw [List.cons_append, scan_cons_digit c (r ++ rest) hs (isWordStart_of_isdigit c hc) hc,
    takeWhile_append_of_all isdigit r rest hr hrest,
    dropWhile_append_of_all isdigit r rest hr hrest]

theorem isWord_iff (t : Token) :
    isWord t = true ↔ ∃ c r, t = c :: r ∧ isWordStart c = true ∧ ∀ x ∈ r, isWordChar x = true := by
  cases t with
  | nil => simp [isWord]
  | cons c r =>
    simp only [isWord, List.all_cons, Bool.and_eq_true, List.all_eq_true, List.cons.injEq,
      ← isWordChar_eq]
    constructor
    · rintro ⟨h1, _, h3⟩
      exact ⟨c, r, ⟨rfl, rfl⟩, h1, h3⟩
    · rintro ⟨c1, r1, ⟨rfl, rfl⟩, h1, h3⟩
      exact ⟨h1, isWordChar_of_isWordStart _ h1, h3⟩

theorem isNumber_iff (t : Token) :
    isNumber t = true ↔ ∃ c r, t = c :: r ∧ isdigit c = true ∧ ∀ x ∈ r, isdigit x = true := by
  cases t with
  | nil => simp [isNumber]
  | cons c r =>
    simp only [isNumber, List.isEmpty_cons, Bool.not_false, Bool.true_and, List.all_cons,
      Bool.and_eq_true, List.all_eq_true, List.cons.injEq]
    constructor
    · rintro ⟨h1, h3⟩
      exact ⟨c, r, ⟨rfl, rfl⟩, h1, h3⟩
    · rintro ⟨c1, r1, ⟨rfl, rfl⟩, h1, h3⟩
      exact ⟨h1, h3⟩

theorem isSymbol_iff (t : Token) :
    isSymbol t = true ↔ ∃ c, t = [c] ∧ isSymbolChar c = true := by
  match t with
  | [] => simp [isSymbol]
  | [c] =>
    simp only [isSymbol, isSymbolChar, Bool.not_or, List.cons.injEq, and_true, exists_eq_left',
      Bool.and_assoc]
  | _ :: _ :: _ => simp [isSymbol]

theorem filter_takeWhile_of_imp (p : Byte → Bool) (l : List Byte)
    (hp : ∀ x, p x = true → isspace x = false) :
    (l.takeWhile p).filter (fun c => !isspace c) = l.takeWhile p := by
  rw [List.filter_eq_self]
  intro x hx
  simp [hp x (List.mem_takeWhile_imp hx)]

/-- The tokens of `scan s`, concatenated, are `s` without its whitespace. -/
theorem scan_flatten (s : List Byte) :
    (scan s).flatten = s.filter fun c => !isspace c := by
  induction s using scan.induct with
  | case1 => simp [scan_nil]
  | case2 c rest h ih =>
    rw [scan_cons_space c rest h, ih]
    simp [h]
  | case3 c rest h1 h2 ih =>
    have h1 : isspace c = false := by simpa using h1
    rw [scan_cons_word c rest h1 h2, List.flatten_cons, ih]
    conv_rhs => rw [← List.takeWhile_append_dropWhile isWordChar rest]
    rw [List.filter_cons_of_pos (by simp [h1]), List.filter_append,
      filter_takeWhile_of_imp isWordChar rest isspace_of_isWordChar]
    simp
  | case4 c rest h1 h2 h3 ih =>
    have h1 : isspace c = false := by simpa using h1
    have h2 : isWordStart c = false := by simpa using h2
    rw [scan_cons_digit c rest h1 h2 h3, List.flatten_cons, ih]
    conv_rhs => rw [← List.takeWhile_append_dropWhile isdigit rest]
    rw [List.filter_cons_of_pos (by simp [h1]), List.filter_append,
      filter_takeWhile_of_imp isdigit rest
        (fun x hx => isspace_of_isWordChar x (isWordChar_of_isdigit x hx))]
    simp
  | case5 c rest h1 h2 h3 ih =>
    have h1 : isspace c = false := by simpa using h1
    have h2 : isWordStart c = false := by simpa using h2
    have h3 : isdigit c = false := by simpa using h3
    rw [scan_cons_symbol c rest h1 h2 h3, List.flatten_cons, ih]
    simp [h1]

/-- Every token of `scan s` is a word, a number or a symbol. -/
theorem scan_token_kind (s : List Byte) :
    ∀ t ∈ scan s, isWord t = true ∨ isNumber t = true ∨ isSymbol t = true := by
  induction s using scan.induct with
  | case1 => simp [scan_nil]
  | case2 c rest h ih =>
    rw [scan_cons_space c rest h]; exact ih
  | case3 c rest h1 h2 ih =>
    have h1 : isspace c = false := by simpa using h1
    rw [scan_cons_word c rest h1 h2]
    intro t ht
    rcases List.mem_cons.mp ht with rfl | ht
    · exact Or.inl ((isWord_iff _).mpr ⟨c, _, rfl, h2, fun x hx => List.mem_takeWhile_imp hx⟩)
    · exact ih t ht
  | case4 c rest h1 h2 h3 ih =>
    have h1 : isspace c = false := by simpa using h1
    have h2 : isWordStart c = false := by simpa using h2
    rw [scan_cons_digit c rest h1 h2 h3]
    intro t ht
    rcases List.mem_cons.mp ht with rfl | ht
    · exact Or.inr (Or.inl
        ((isNumber_iff _).mpr ⟨c, _, rfl, h3, fun x hx => List.mem_takeWhile_imp hx⟩))
    · exact ih t ht
  | case5 c rest h1 h2 h3 ih =>
    have h1 : isspace c = false := by simpa using h1
    have h2 : isWordStart c = false := by simpa using h2
    have h3 : isdigit c = false := by simpa using h3
    rw [scan_cons_symbol c rest h1 h2 h3]
    intro t ht
    rcases List.mem_cons.mp ht with rfl | ht
    · exact Or.inr (Or.inr
        ((isSymbol_iff _).mpr ⟨c, rfl, (isSymbolChar_iff c).mpr ⟨h1, h2, h3⟩⟩))
    · exact ih t ht

theorem not_isNumber_of_isWord (t : Token) (h : isWord t = true) : isNumber t = false := by
  obtain ⟨c, r, rfl, hc, _⟩ := (isWord_iff t).mp h
  cases hn : isNumber (c :: r) with
  | false => rfl
  | true =>
    obtain ⟨c1, r1, e, hd, _⟩ := (isNumber_iff _).mp hn
    obtain ⟨rfl, rfl⟩ := List.cons.inj e
    rw [isWordStart_of_isdigit c hd] at hc
    cases hc

theorem not_isSymbol_of_isWord (t : Token) (h : isWord t = true) : isSymbol t = false := by
  obtain ⟨c, r, rfl, hc, _⟩ := (isWord_iff t).mp h
  cases hn : isSymbol (c :: r) with
  | false => rfl
  | true =>
    obtain ⟨c1, e, hs⟩ := (isSymbol_iff _).mp hn
    obtain ⟨rfl, rfl⟩ := List.cons.inj e
    rw [((isSymbolChar_iff c).mp hs).2.1] at hc
    cases hc

theorem not_isSymbol_of_isNumber (t : Token) (h : isNumber t = true) : isSymbol t = false := by
  obtain ⟨c, r, rfl, hc, _⟩ := (isNumber_iff t).mp h
  cases hn : isSymbol (c :: r) with
  | false => rfl
  | true =>
    obtain ⟨c1, e, hs⟩ := (isSymbol_iff _).mp hn
    obtain ⟨rfl, rfl⟩ := List.cons.inj e
    rw [((isSymbolChar_iff c).mp hs).2.2] at hc
    cases hc

/-- The three shapes are mutually exclusive. -/
theorem exactly_one_of_kind (t : Token)
    (h : isWord t = true ∨ isNumber t = true ∨ isSymbol t = true) :
    (isWord t = true ∧ isNumber t = false ∧ isSymbol t = false) ∨
      (isWord t = false ∧ isNumber t = true ∧ isSymbol t = false) ∨
      (isWord t = false ∧ isNumber t = false ∧ isSymbol t = true) := by
  rcases h with h | h | h
  · exact Or.inl ⟨h, not_isNumber_of_isWord t h, not_isSymbol_of_isWord t h⟩
  · refine Or.inr (Or.inl ⟨?_, h, not_isSymbol_of_isNumber t h⟩)
    cases hw : isWord t with
    | false => rfl
    | true => rw [not_isNumber_of_isWord t hw] at h; cases h
  · refine Or.inr (Or.inr ⟨?_, ?_, h⟩)
    · cases hw : isWord t with
      | false => rfl
      | true => rw [not_isSymbol_of_isWord t hw] at h; cases h
    · cases hw : isNumber t with
      | false => rfl
      | true => rw [not_isSymbol_of_isNumber t hw] at h; cases h

/-- The scan of `s` is empty exactly when `s` is all whitespace. -/
theorem scan_eq_nil_iff (s : List Byte) : scan s = [] ↔ ∀ c ∈ s, isspace c = true := by
  induction s with
  | nil => simp [scan_nil]
  | cons c rest ih =>
    by_cases h1 : isspace c = true
    · rw [scan_cons_space c rest h1, ih]
      simp [h1]
    · have hne : scan (c :: rest) ≠ [] := by
        have h1 : isspace c = false := by simpa using h1
        by_cases h2 : isWordStart c = true
        · rw [scan_cons_word c rest h1 h2]; simp
        · have h2 : isWordStart c = false := by simpa using h2
          by_cases h3 : isdigit c = true
          · rw [scan_cons_digit c rest h1 h2 h3]; simp
          · have h3 : isdigit c = false := by simpa using h3
            rw [scan_cons_symbol c rest h1 h2 h3]; simp
      constructor
      · intro h; exact absurd h hne
      · intro h; exact absurd (h c (by simp)) h1

theorem ne_nil_of_kind (t : Token)
    (h : isWord t = true ∨ isNumber t = true ∨ isSymbol t = true) : t ≠ [] := by
  rcases h with h | h | h
  · obtain ⟨c, r, rfl, _⟩ := (isWord_iff t).mp h
    simp
  · obtain ⟨c, r, rfl, _⟩ := (isNumber_iff t).mp h
    simp
  · obtain ⟨c, rfl, _⟩ := (isSymbol_iff t).mp h
    simp

theorem not_isspace_of_kind (t : Token)
    (h : isWord t = true ∨ isNumber t = true ∨ isSymbol t = true) :
    ∀ c ∈ t, isspace c = false := by
  intro x hx
  rcases h with h | h | h
  · obtain ⟨c, r, rfl, hc, hr⟩ := (isWord_iff t).mp h
    rcases List.mem_cons.mp hx with rfl | hx
    · exact isspace_of_isWordChar _ (isWordChar_of_isWordStart _ hc)
    · exact isspace_of_isWordChar _ (hr x hx)
  · obtain ⟨c, r, rfl, hc, hr⟩ := (isNumber_iff t).mp h
    rcases List.mem_cons.mp hx with rfl | hx
    · exact isspace_of_isWordChar _ (isWordChar_of_isdigit _ hc)
    · exact isspace_of_isWordChar _ (isWordChar_of_isdigit _ (hr x hx))
  · obtain ⟨c, rfl, hc⟩ := (isSymbol_iff t).mp h
    rw [List.mem_singleton.mp hx]
    exact ((isSymbolChar_iff c).mp hc).1

/-- A token of one of the three shapes, followed by whitespace or by nothing, is
scanned as itself. -/
theorem scan_kind_append (t : Token) (rest : List Byte)
    (h : isWord t = true ∨ isNumber t = true ∨ isSymbol t = true)
    (hrest : ∀ x ∈ rest.head?, isspace x = true) :
    scan (t ++ rest) = t :: scan rest := by
  have hw : ∀ x ∈ rest.head?, isWordChar x = false := by
    intro x hx
    cases hwc : isWordChar x with
    | false => rfl
    | true =>
      have := isspace_of_isWordChar x hwc
      rw [hrest x hx] at this
      cases this
  have hd : ∀ x ∈ rest.head?, isdigit x = false := by
    intro x hx
    cases hdc : isdigit x with
    | false => rfl
    | true =>
      have := isWordChar_of_isdigit x hdc
      rw [hw x hx] at this
      cases this
  rcases h with h | h | h
  · obtain ⟨c, r, rfl, hc, hr⟩ := (isWord_iff t).mp h
    exact scan_word_append c r rest hc hr hw
  · obtain ⟨c, r, rfl, hc, hr⟩ := (isNumber_iff t).mp h
    exact scan_number_append c r rest hc hr hd
  · obtain ⟨c, rfl, hc⟩ := (isSymbol_iff t).mp h
    obtain ⟨h1, h2, h3⟩ := (isSymbolChar_iff c).mp hc
    exact scan_cons_symbol c rest h1 h2 h3

/-- Scanning tokens of the three shapes joined by single spaces gives the tokens back. -/
theorem scan_intercalate (ts : List Token)
    (h : ∀ t ∈ ts, isWord t = true ∨ isNumber t = true ∨ isSymbol t = true) :
    scan (List.intercalate [32] ts) = ts := by
  induction ts with
  | nil => simp [List.intercalate, scan_nil]
  | cons t ts ih =>
    cases ts with
    | nil =>
      have := scan_kind_append t [] (h t (by simp)) (by simp)
      simpa [List.intercalate, scan_nil] using this
    | cons u us =>
      have ih1 := ih (fun x hx => h x (by simp [hx]))
      have e : List.intercalate [32] (t :: u :: us) =
          t ++ (32 :: List.intercalate [32] (u :: us)) := by
        simp [List.intercalate, List.intersperse]
      rw [e, scan_kind_append t _ (h t (by simp)) (by simp [isspace]),
        scan_cons_space 32 _ (by decide), ih1]

/-- A byte of value 128 or more is in no character class. -/
theorem isSymbolChar_of_high (c : Byte) (h : 128 ≤ c.toNat) : isSymbolChar c = true := by
  rw [isSymbolChar_iff]
  have hu : c ≠ underscore := by
    intro e
    rw [e] at h
    revert h
    decide
  refine ⟨?_, ?_, ?_⟩
  · simp only [isspace, Bool.or_eq_false_iff, Bool.and_eq_false_iff, beq_eq_false_iff_ne,
      decide_eq_false_iff_not]
    omega
  · simp only [isWordStart, isalpha, Bool.or_eq_false_iff, Bool.and_eq_false_iff,
      beq_eq_false_iff_ne, decide_eq_false_iff_not]
    refine ⟨?_, hu⟩
    omega
  · simp only [isdigit, Bool.and_eq_false_iff, decide_eq_false_iff_not]
    omega

/-- A run of symbol characters is scanned into one token per character. -/
theorem scan_symbols (cs : List Byte) (h : ∀ x ∈ cs, isSymbolChar x = true) :
    scan cs = cs.map fun x => [x] := by
  induction cs with
  | nil => simp [scan_nil]
  | cons c cs ih =>
    obtain ⟨h1, h2, h3⟩ := (isSymbolChar_iff c).mp (h c (by simp))
    rw [scan_cons_symbol c cs h1 h2 h3, ih (fun x hx => h x (by simp [hx]))]
    simp

/-! ## The claims -/

/-- C1: on every input `s`, `Tokenize` returns, and the concatenation of the returned
tokens, in order, is `s` with every whitespace character (space, `\t`, `\n`, `\v`,
`\f`, `\r`) deleted. -/
theorem Tokenize_concat_eq_filter (s : List Byte) :
    ∃ ts, Tokenize s = some ts ∧
      ts.flatten = s.filter fun c => !whitespace.contains c := by
  refine ⟨scan s, Tokenize_eq_scan s, ?_⟩
  rw [scan_flatten]
  congr 1
  funext c
  rw [isspace_eq_contains]

/-- C2: on every input `s`, every returned token has exactly one of the three shapes
word, number, symbol. -/
theorem Tokenize_token_shape (s : List Byte) :
    ∃ ts, Tokenize s = some ts ∧ ∀ t ∈ ts,
      (isWord t = true ∧ isNumber t = false ∧ isSymbol t = false) ∨
      (isWord t = false ∧ isNumber t = true ∧ isSymbol t = false) ∨
      (isWord t = false ∧ isNumber t = false ∧ isSymbol t = true) :=
  ⟨scan s, Tokenize_eq_scan s, fun t ht => exactly_one_of_kind t (scan_token_kind s t ht)⟩

/-- C3 (word rule): if `w` has the word shape and `rest` is empty or begins with a
character that is not a letter, a digit or `'_'`, then `Tokenize (w ++ rest)` is `w`
followed by the tokens of `rest`; and `Tokenize w` is the single token `w`. -/
theorem Tokenize_word_rule (w rest : List Byte) (hw : isWord w = true)
    (hrest : ∀ c ∈ rest.head?, (isalpha c || isdigit c || c == underscore) = false) :
    (∃ ts, Tokenize rest = some ts ∧ Tokenize (w ++ rest) = some (w :: ts)) ∧
      Tokenize w = some [w] := by
  obtain ⟨c, r, rfl, hc, hr⟩ := (isWord_iff w).mp hw
  constructor
  · refine ⟨scan rest, Tokenize_eq_scan rest, ?_⟩
    rw [Tokenize_eq_scan, scan_word_append c r rest hc hr hrest]
  · have := scan_word_append c r [] hc hr (by simp)
    rw [Tokenize_eq_scan]
    simpa [scan_nil] using this

/-- C3 at `w = "_a_1"`, `rest = "=x"`. -/
theorem Tokenize_word_rule_witness :
    isWord (bytes "_a_1") = true ∧
      (∀ c ∈ (bytes "=x").head?, (isalpha c || isdigit c || c == underscore) = false) ∧
      (∃ ts, Tokenize (bytes "=x") = some ts ∧
        Tokenize (bytes "_a_1" ++ bytes "=x") = some (bytes "_a_1" :: ts)) ∧
      Tokenize (bytes "_a_1") = some [bytes "_a_1"] :=
  have h : ∀ c ∈ (bytes "=x").head?, (isalpha c || isdigit c || c == underscore) = false := by
    intro c hc
    have : c = 61 := (Option.some.inj hc).symm
    subst this
    decide
  ⟨by decide, h, Tokenize_word_rule (bytes "_a_1") (bytes "=x") (by decide) h⟩

/-- C4 (number rule): if `d` is a non-empty string of decimal digits and `rest` is empty
or begins with a non-digit, then `Tokenize (d ++ rest)` is `d` followed by the tokens of
`rest`. -/
theorem Tokenize_number_rule (d rest : List Byte) (hd : isNumber d = true)
    (hrest : ∀ c ∈ rest.head?, isdigit c = false) :
    ∃ ts, Tokenize rest = some ts ∧ Tokenize (d ++ rest) = some (d :: ts) := by
  obtain ⟨c, r, rfl, hc, hr⟩ := (isNumber_iff d).mp hd
  refine ⟨scan rest, Tokenize_eq_scan rest, ?_⟩
  rw [Tokenize_eq_scan, scan_number_append c r rest hc hr hrest]

/-- C4 at `d = "9"`, `rest = "x"`: the input `"9x"` gives `["9", "x"]`. -/
theorem Tokenize_number_rule_witness :
    isNumber (bytes "9") = true ∧ (∀ c ∈ (bytes "x").head?, isdigit c = false) ∧
      Tokenize (bytes "9x") = some [bytes "9", bytes "x"] :=
  have h : ∀ c ∈ (bytes "x").head?, isdigit c = false := by
    intro c hc
    have : c = 120 := (Option.some.inj hc).symm
    subst this
    decide
  ⟨by decide, h, by
    obtain ⟨ts, h1, h2⟩ := Tokenize_number_rule (bytes "9") (bytes "x") (by decide) h
    have e : Tokenize (bytes "x") = some [bytes "x"] := by decide
    rw [e] at h1
    cases h1
    exact h2⟩

/-- C5 (symbol rule): if `c` is not whitespace, not a letter, not a digit and not `'_'`
(every byte of value 128 or more is such a character), then `Tokenize (c :: rest)` is
the one-character token `[c]` followed by the tokens of `rest`; and an input made of such
characters only yields one one-character token per character. -/
theorem Tokenize_symbol_rule (c : Byte) (rest cs : List Byte)
    (hc : isSymbolChar c = true ∨ 128 ≤ c.toNat)
    (hcs : ∀ x ∈ cs, isSymbolChar x = true ∨ 128 ≤ x.toNat) :
    (∃ ts, Tokenize rest = some ts ∧ Tokenize (c :: rest) = some ([c] :: ts)) ∧
      Tokenize cs = some (cs.map fun x => [x]) := by
  have key : ∀ x : Byte, isSymbolChar x = true ∨ 128 ≤ x.toNat → isSymbolChar x = true :=
    fun x hx => hx.elim id (isSymbolChar_of_high x)
  obtain ⟨h1, h2, h3⟩ := (isSymbolChar_iff c).mp (key c hc)
  constructor
  · refine ⟨scan rest, Tokenize_eq_scan rest, ?_⟩
    rw [Tokenize_eq_scan, scan_cons_symbol c rest h1 h2 h3]
  · rw [Tokenize_eq_scan, scan_symbols cs (fun x hx => key x (hcs x hx))]

/-- C5 at `c = '='`, `rest = "=b"` and `cs` the four bytes `"<="`, `0x01`, `0xC3`. -/
theorem Tokenize_symbol_rule_witness :
    (isSymbolChar 61 = true ∨ 128 ≤ (61 : Byte).toNat) ∧
      (∀ x ∈ [60, 61, 1, 195], isSymbolChar x = true ∨ 128 ≤ x.toNat) ∧
      (∃ ts, Tokenize (bytes "=b") = some ts ∧
        Tokenize (61 :: bytes "=b") = some ([61] :: ts)) ∧
      Tokenize [60, 61, 1, 195] = some [[60], [61], [1], [195]] :=
  have h : ∀ x ∈ [60, 61, 1, 195], isSymbolChar x = true ∨ 128 ≤ x.toNat := by
    intro x hx
    simp only [List.mem_cons, List.mem_singleton, List.not_mem_nil, or_false] at hx
    rcases hx with e | e | e | e <;> (rw [e]; decide)
  ⟨by decide, h, Tokenize_symbol_rule 61 (bytes "=b") [60, 61, 1, 195] (by decide) h⟩

/-- C6 (whitespace rule): if `c` is a space, tab, newline, vertical tab, form feed or
carriage return, then `Tokenize (c :: rest)` returns exactly the tokens of `rest`. -/
theorem Tokenize_whitespace_rule (c : Byte) (rest : List Byte) (hc : c ∈ whitespace) :
    ∃ ts, Tokenize rest = some ts ∧ Tokenize (c :: rest) = some ts := by
  have hs : isspace c = true := by
    rw [isspace_eq_contains]
    simpa using hc
  refine ⟨scan rest, Tokenize_eq_scan rest, ?_⟩
  rw [Tokenize_eq_scan, scan_cons_space c rest hs]

/-- C6 at `c = '\t'`, `rest = "a b"`. -/
theorem Tokenize_whitespace_rule_witness :
    (9 : Byte) ∈ whitespace ∧
      ∃ ts, Tokenize (bytes "a b") = some ts ∧ Tokenize (9 :: bytes "a b") = some ts :=
  ⟨by decide, Tokenize_whitespace_rule 9 (bytes "a b") (by decide)⟩

/-- C7: on every input `s`, `Tokenize` returns, and the returned sequence is empty if and
only if every character of `s` is whitespace; the empty input and `"   \t\n"` both give
the empty sequence. -/
theorem Tokenize_eq_nil_iff (s : List Byte) :
    (∃ ts, Tokenize s = some ts ∧ (ts = [] ↔ ∀ c ∈ s, c ∈ whitespace)) ∧
      Tokenize [] = some [] ∧ Tokenize (bytes "   \t\n") = some [] := by
  refine ⟨⟨scan s, Tokenize_eq_scan s, ?_⟩, by decide, by decide⟩
  rw [scan_eq_nil_iff]
  constructor
  · intro h c hc
    have := h c hc
    rw [isspace_eq_contains] at this
    simpa using this
  · intro h c hc
    rw [isspace_eq_contains]
    simpa using h c hc

/-- C8 (idempotence): on every input `s`, scanning the returned tokens joined with a
single space between consecutive tokens returns exactly the same tokens. -/
theorem Tokenize_idempotent (s : List Byte) :
    ∃ ts, Tokenize s = some ts ∧ Tokenize (List.intercalate (bytes " ") ts) = some ts := by
  refine ⟨scan s, Tokenize_eq_scan s, ?_⟩
  rw [Tokenize_eq_scan]
  exact congrArg some (scan_intercalate (scan s) (scan_token_kind s))

/-- C9: on every input `s`, no returned token is the empty string. -/
theorem Tokenize_token_ne_nil (s : List Byte) :
    ∃ ts, Tokenize s = some ts ∧ ∀ t ∈ ts, t ≠ [] :=
  ⟨scan s, Tokenize_eq_scan s, fun t ht => ne_nil_of_kind t (scan_token_kind s t ht)⟩

/-- C10: on every input `s`, no returned token contains a whitespace character; in
particular no token contains a line feed (10) or a carriage return (13). -/
theorem Tokenize_token_no_whitespace (s : List Byte) :
    ∃ ts, Tokenize s = some ts ∧ ∀ t ∈ ts, ∀ c ∈ t, c ∉ whitespace ∧ c ≠ 10 ∧ c ≠ 13 := by
  refine ⟨scan s, Tokenize_eq_scan s, ?_⟩
  intro t ht c hc
  have hs := not_isspace_of_kind t (scan_token_kind s t ht) c hc
  have hw : c ∉ whitespace := by
    intro hmem
    have : isspace c = true := by
      rw [isspace_eq_contains]
      simpa using hmem
    rw [hs] at this
    cases this
  refine ⟨hw, ?_, ?_⟩
  · rintro rfl
    exact hw (by decide)
  · rintro rfl
    exact hw (by decide)


/-! ## Termination and bounds -/

/-- The inner loop, started at a cursor inside the input with fuel for the characters to
its right, returns with the cursor still inside the input. -/
theorem whileLoop_total (p : Byte → Bool) (input : List Byte) (fuel : Nat) :
    ∀ (i : Nat) (token : List Byte), i < input.length → input.length ≤ fuel + i + 1 →
      ∃ j tok, whileLoop p input fuel i token = some (j, tok) ∧ i ≤ j ∧ j < input.length := by
  induction fuel with
  | zero =>
    intro i token hi hf
    have hn : ¬ i + 1 < input.length := by omega
    unfold whileLoop
    exact ⟨i, token, by simp [hn], Nat.le_refl _, hi⟩
  | succ f ih =>
    intro i token hi hf
    unfold whileLoop
    by_cases hlt : i + 1 < input.length
    · have hget : input[i + 1]? = some input[i + 1] := List.getElem?_eq_getElem hlt
      by_cases hp : p input[i + 1] = true
      · obtain ⟨j, tok, h1, h2, h3⟩ := ih (i + 1) (token ++ [input[i + 1]]) hlt (by omega)
        refine ⟨j, tok, ?_, by omega, h3⟩
        simp only [hlt, if_true, hget, Option.bind_eq_bind, Option.some_bind, hp]
        exact h1
      · refine ⟨i, token, ?_, Nat.le_refl _, hi⟩
        simp only [hlt, if_true, hget, Option.bind_eq_bind, Option.some_bind, hp]
        rfl
    · exact ⟨i, token, by simp [hlt], Nat.le_refl _, hi⟩

/-- One iteration of the `for` loop, entered with the cursor inside the input, completes
with the cursor inside the input, not moved back, and with an empty `token`. -/
theorem loopBody_total (input : List Byte) (st : LoopState) (hi : st.i < input.length) :
    ∃ st1, loopBody input st = some st1 ∧ st.i ≤ st1.i ∧ st1.i < input.length ∧
      st1.token = [] := by
  rw [loopBody_of_getElem? input st input[st.i] (List.getElem?_eq_getElem hi)]
  by_cases h1 : isspace input[st.i] = true
  · by_cases he : st.token.isEmpty = true
    · refine ⟨st, by simp [h1, he], Nat.le_refl _, hi, ?_⟩
      exact List.isEmpty_iff.mp he
    · exact ⟨{ st with tokens := st.tokens ++ [st.token], token := [] }, by simp [h1, he],
        Nat.le_refl _, hi, rfl⟩
  · by_cases h2 : isWordStart input[st.i] = true
    · obtain ⟨j, tok, h, hj1, hj2⟩ := whileLoop_total isWordChar input input.length st.i
        (st.token ++ [input[st.i]]) hi (by omega)
      exact ⟨{ i := j, token := [], tokens := st.tokens ++ [tok] }, by simp [h1, h2, h],
        hj1, hj2, rfl⟩
    · by_cases h3 : isdigit input[st.i] = true
      · obtain ⟨j, tok, h, hj1, hj2⟩ := whileLoop_total isdigit input input.length st.i
          (st.token ++ [input[st.i]]) hi (by omega)
        exact ⟨{ i := j, token := [], tokens := st.tokens ++ [tok] },
          by simp [h1, h2, h3, h], hj1, hj2, rfl⟩
      · exact ⟨{ st with token := [], tokens := st.tokens ++ [st.token ++ [input[st.i]]] },
          by simp [h1, h2, h3], Nat.le_refl _, hi, rfl⟩

/-! ## Boundaries between tokens -/

theorem not_isWordStart_of_not_isWordChar (c : Byte) (h : isWordChar c = false) :
    isWordStart c = false := by
  cases hs : isWordStart c with
  | false => rfl
  | true =>
    rw [isWordChar_of_isWordStart c hs] at h
    cases h

theorem not_isdigit_of_not_isWordChar (c : Byte) (h : isWordChar c = false) :
    isdigit c = false := by
  cases hs : isdigit c with
  | false => rfl
  | true =>
    rw [isWordChar_of_isdigit c hs] at h
    cases h

theorem not_isWordChar_of_isspace (c : Byte) (h : isspace c = true) :
    isWordChar c = false := by
  cases hs : isWordChar c with
  | false => rfl
  | true =>
    rw [isspace_of_isWordChar c hs] at h
    cases h

theorem takeWhile_append_of_head (p : Byte → Bool) (l b : List Byte)
    (hb : ∀ y ∈ b.head?, p y = false) :
    (l ++ b).takeWhile p = l.takeWhile p := by
  induction l with
  | nil =>
    cases b with
    | nil => rfl
    | cons y t =>
      have : p y = false := hb y (by simp)
      simp [List.takeWhile_cons, this]
  | cons a l ih =>
    simp only [List.cons_append, List.takeWhile_cons, ih]

theorem dropWhile_append_of_head (p : Byte → Bool) (l b : List Byte)
    (hb : ∀ y ∈ b.head?, p y = false) :
    (l ++ b).dropWhile p = l.dropWhile p ++ b := by
  induction l with
  | nil =>
    cases b with
    | nil => rfl
    | cons y t =>
      have : p y = false := hb y (by simp)
      simp [List.dropWhile_cons, this]
  | cons a l ih =>
    simp only [List.cons_append, List.dropWhile_cons, ih]
    split <;> rfl

/-- The scan splits in front of a character that is not a word character. -/
theorem scan_append_of_head (a b : List Byte) (hb : ∀ y ∈ b.head?, isWordChar y = false) :
    scan (a ++ b) = scan a ++ scan b := by
  have hd : ∀ y ∈ b.head?, isdigit y = false :=
    fun y hy => not_isdigit_of_not_isWordChar y (hb y hy)
  induction a using scan.induct with
  | case1 => simp [scan_nil]
  | case2 c rest h ih =>
    rw [List.cons_append, scan_cons_space c _ h, scan_cons_space c _ h, ih]
  | case3 c rest h1 h2 ih =>
    have h1 : isspace c = false := by simpa using h1
    rw [List.cons_append, scan_cons_word c _ h1 h2, scan_cons_word c _ h1 h2,
      takeWhile_append_of_head isWordChar rest b hb,
      dropWhile_append_of_head isWordChar rest b hb, ih, List.cons_append]
  | case4 c rest h1 h2 h3 ih =>
    have h1 : isspace c = false := by simpa using h1
    have h2 : isWordStart c = false := by simpa using h2
    rw [List.cons_append, scan_cons_digit c _ h1 h2 h3, scan_cons_digit c _ h1 h2 h3,
      takeWhile_append_of_head isdigit rest b hd,
      dropWhile_append_of_head isdigit rest b hd, ih, List.cons_append]
  | case5 c rest h1 h2 h3 ih =>
    have h1 : isspace c = false := by simpa using h1
    have h2 : isWordStart c = false := by simpa using h2
    have h3 : isdigit c = false := by simpa using h3
    rw [List.cons_append, scan_cons_symbol c _ h1 h2 h3, scan_cons_symbol c _ h1 h2 h3, ih,
      List.cons_append]

theorem scan_cons_of_not_isWordChar (x : Byte) (b : List Byte) (hx : isWordChar x = false) :
    scan (x :: b) = scan [x] ++ scan b := by
  have h2 := not_isWordStart_of_not_isWordChar x hx
  have h3 := not_isdigit_of_not_isWordChar x hx
  by_cases h1 : isspace x = true
  · rw [scan_cons_space x b h1, scan_cons_space x [] h1, scan_nil, List.nil_append]
  · have h1 : isspace x = false := by simpa using h1
    rw [scan_cons_symbol x b h1 h2 h3, scan_cons_symbol x [] h1 h2 h3, scan_nil]
    rfl

/-- The scan splits behind a character that is not a word character. -/
theorem scan_append_of_getLast (a b : List Byte)
    (ha : ∃ x ∈ a.getLast?, isWordChar x = false) :
    scan (a ++ b) = scan a ++ scan b := by
  obtain ⟨x, hx, hw⟩ := ha
  obtain ⟨ys, rfl⟩ := List.getLast?_eq_some_iff.mp hx
  have hhead : ∀ (t : List Byte), ∀ y ∈ (x :: t).head?, isWordChar y = false := by
    intro t y hy
    have : y = x := (Option.some.inj hy).symm
    rw [this]
    exact hw
  rw [List.append_assoc, scan_append_of_head ys ([x] ++ b) (hhead b),
    scan_append_of_head ys [x] (hhead []), List.singleton_append,
    scan_cons_of_not_isWordChar x b hw, List.append_assoc]

/-- The scan splits at every boundary where a word cannot continue. -/
theorem scan_append_of_boundary (a b : List Byte)
    (h : a = [] ∨ b = [] ∨ (∃ x ∈ a.getLast?, isWordChar x = false) ∨
      (∃ y ∈ b.head?, isWordChar y = false)) :
    scan (a ++ b) = scan a ++ scan b := by
  rcases h with rfl | rfl | h | h
  · simp [scan_nil]
  · simp [scan_nil]
  · exact scan_append_of_getLast a b h
  · obtain ⟨y, hy, hw⟩ := h
    refine scan_append_of_head a b ?_
    intro z hz
    have : z = y := Option.some.inj (hz.symm.trans hy)
    rw [this]
    exact hw

/-- Leading whitespace does not change the scan. -/
theorem scan_whitespace_append (w b : List Byte) (hw : ∀ c ∈ w, isspace c = true) :
    scan (w ++ b) = scan b := by
  induction w with
  | nil => rfl
  | cons c w ih =>
    rw [List.cons_append, scan_cons_space c _ (hw c (by simp)),
      ih (fun x hx => hw x (by simp [hx]))]

/-- Whitespace between, before or after two inputs only separates them. -/
theorem scan_append_whitespace_append (a w b : List Byte) (hw : ∀ c ∈ w, isspace c = true)
    (hne : w ≠ [] ∨ b = []) :
    scan (a ++ w ++ b) = scan a ++ scan b := by
  have hhead : ∀ y ∈ (w ++ b).head?, isWordChar y = false := by
    intro y hy
    cases w with
    | nil =>
      rcases hne with h | h
      · exact absurd rfl h
      · subst h
        simp at hy
    | cons c t =>
      have : y = c := (Option.some.inj hy).symm
      rw [this]
      exact not_isWordChar_of_isspace c (hw c (by simp))
  rw [List.append_assoc, scan_append_of_head a (w ++ b) hhead, scan_whitespace_append w b hw]

/-! ## The accumulator `token` between iterations -/

theorem loopBody_token (input : List Byte) (st st1 : LoopState)
    (h : loopBody input st = some st1) : st1.token = [] := by
  cases hg : input[st.i]? with
  | none =>
    unfold loopBody at h
    rw [hg] at h
    cases h
  | some ch =>
    have hi : st.i < input.length := by
      rcases Nat.lt_or_ge st.i input.length with hlt | hge
      · exact hlt
      · rw [List.getElem?_eq_none_iff.mpr hge] at hg
        cases hg
    obtain ⟨st2, h2, _, _, h3⟩ := loopBody_total input st hi
    rw [h] at h2
    cases h2
    exact h3

theorem loopBody_eq_noFlush (input : List Byte) (st : LoopState) (h : st.token = []) :
    loopBody input st = loopBodyNoFlush input st := by
  unfold loopBody loopBodyNoFlush
  simp [h]

theorem forLoop_eq_noFlush (input : List Byte) (fuel : Nat) :
    ∀ st : LoopState, st.token = [] → forLoop input fuel st = forLoopNoFlush input fuel st := by
  induction fuel with
  | zero =>
    intro st _
    unfold forLoop forLoopNoFlush
    rfl
  | succ f ih =>
    intro st h
    unfold forLoop forLoopNoFlush
    rw [← loopBody_eq_noFlush input st h]
    by_cases hlt : st.i < input.length
    · cases hb : loopBody input st with
      | none => simp [hlt]
      | some st1 =>
        have := ih { st1 with i := st1.i + 1 } (loopBody_token input st st1 hb)
        simp [hlt, this]
    · simp [hlt]

/-- After any number of complete iterations from a state with an empty `token`, the
`token` is empty. -/
theorem loopIter_token (input : List Byte) (n : Nat) :
    ∀ st0 st : LoopState, st0.token = [] → loopIter input n st0 = some st → st.token = [] := by
  induction n with
  | zero =>
    intro st0 st h0 h
    simp only [loopIter, Option.some.injEq] at h
    rw [← h]
    exact h0
  | succ n ih =>
    intro st0 st h0 h
    unfold loopIter at h
    by_cases hlt : st0.i < input.length
    · cases hb : loopBody input st0 with
      | none => simp [hlt, hb] at h
      | some st1 =>
        simp only [hlt, if_true, hb, Option.bind_eq_bind, Option.some_bind] at h
        exact ih { st1 with i := st1.i + 1 } st (loopBody_token input st0 st1 hb) h
    · simp [hlt] at h

/-- The states of `loopIter` are those the `for` loop goes through: running the loop from
the start is running it from the state reached after `n` iterations. -/
theorem forLoop_loopIter (input : List Byte) (n : Nat) :
    ∀ (st0 st : LoopState) (fuel : Nat), loopIter input n st0 = some st →
      forLoop input (n + fuel) st0 = forLoop input fuel st := by
  induction n with
  | zero =>
    intro st0 st fuel h
    simp only [loopIter, Option.some.injEq] at h
    rw [h, Nat.zero_add]
  | succ n ih =>
    intro st0 st fuel h
    unfold loopIter at h
    by_cases hlt : st0.i < input.length
    · cases hb : loopBody input st0 with
      | none => simp [hlt, hb] at h
      | some st1 =>
        simp only [hlt, if_true, hb, Option.bind_eq_bind, Option.some_bind] at h
        rw [Nat.add_right_comm, forLoop_step input (n + fuel) st0 st1 hlt hb]
        exact ih { st1 with i := st1.i + 1 } st fuel h
    · simp [hlt] at h

/-- The loop without the flush computes `scan` as well. -/
theorem TokenizeNoFlush_eq_scan (input : List Byte) :
    TokenizeNoFlush input = some (scan input) := by
  have h := forLoop_eq input.length input [] [] (Nat.le_refl _)
  simp only [List.nil_append, List.length_nil] at h
  rw [forLoop_eq_noFlush input input.length _ rfl] at h
  simp [TokenizeNoFlush, h]

/-- The state at loop exit is reached after some number of complete iterations. -/
theorem loopIter_of_forLoop (input : List Byte) (fuel : Nat) :
    ∀ st0 st : LoopState, forLoop input fuel st0 = some st →
      ∃ n, n ≤ fuel ∧ loopIter input n st0 = some st ∧ ¬ st.i < input.length := by
  induction fuel with
  | zero =>
    intro st0 st h
    by_cases hlt : st0.i < input.length
    · unfold forLoop at h
      simp [hlt] at h
    · rw [forLoop_exit input 0 st0 hlt] at h
      cases h
      exact ⟨0, Nat.le_refl _, rfl, hlt⟩
  | succ f ih =>
    intro st0 st h
    by_cases hlt : st0.i < input.length
    · cases hb : loopBody input st0 with
      | none =>
        unfold forLoop at h
        simp [hlt, hb] at h
      | some st1 =>
        rw [forLoop_step input f st0 st1 hlt hb] at h
        obtain ⟨n, hn, hi, hex⟩ := ih { st1 with i := st1.i + 1 } st h
        refine ⟨n + 1, Nat.succ_le_succ hn, ?_, hex⟩
        unfold loopIter
        simp only [hlt, if_true, hb, Option.bind_eq_bind, Option.some_bind]
        exact hi
    · rw [forLoop_exit input (f + 1) st0 hlt] at h
      cases h
      exact ⟨0, Nat.zero_le _, rfl, hlt⟩

/-! ## The claims, continued -/

/-- C11: `Tokenize` returns a token sequence on every input.  The `for` loop ends with the
cursor at the end of the input, and more fuel than `input.length` changes nothing; every
iteration entered with the cursor inside the input completes and leaves the cursor, after
`++i`, strictly larger and at most the length; every inner loop entered with the cursor
inside the input returns with the cursor inside the input.  A read out of bounds would
make these runs `none`. -/
theorem Tokenize_total (s : List Byte) :
    (∃ ts, Tokenize s = some ts) ∧
      (∃ st, forLoop s s.length initState = some st ∧ st.i = s.length ∧
        ∀ fuel, s.length ≤ fuel → forLoop s fuel initState = some st) ∧
      (∀ st : LoopState, st.i < s.length →
        ∃ st1, loopBody s st = some st1 ∧ st.i < st1.i + 1 ∧ st1.i + 1 ≤ s.length) ∧
      (∀ (p : Byte → Bool) (i : Nat) (token : List Byte), i < s.length →
        ∃ j tok, whileLoop p s s.length i token = some (j, tok) ∧ i ≤ j ∧ j < s.length) := by
  refine ⟨⟨scan s, Tokenize_eq_scan s⟩, ?_, ?_, ?_⟩
  · have h := fun fuel (hf : s.length ≤ fuel) => forLoop_eq fuel s [] [] hf
    simp only [List.nil_append, List.length_nil] at h
    exact ⟨_, h s.length (Nat.le_refl _), rfl, h⟩
  · intro st hi
    obtain ⟨st1, h1, h2, h3, _⟩ := loopBody_total s st hi
    exact ⟨st1, h1, by omega, by omega⟩
  · intro p i token hi
    exact whileLoop_total p s s.length i token hi (by omega)

/-- C12: the worked examples `"foo bar"`, `"x1=42"` and `"a==b"`. -/
theorem Tokenize_examples :
    Tokenize (bytes "foo bar") = some [bytes "foo", bytes "bar"] ∧
      Tokenize (bytes "x1=42") = some [bytes "x1", bytes "=", bytes "42"] ∧
      Tokenize (bytes "a==b") = some [bytes "a", bytes "=", bytes "=", bytes "b"] :=
  ⟨by decide, by decide, by decide⟩

/-- C13 (split at a non-word boundary): if `a` is empty, or `b` is empty, or the last
character of `a` is not a letter, digit or `'_'`, or the first character of `b` is not a
letter, digit or `'_'`, then `Tokenize (a ++ b)` returns the tokens of `a` followed by the
tokens of `b`. -/
theorem Tokenize_append_of_boundary (a b : List Byte)
    (h : a = [] ∨ b = [] ∨
      (∃ x ∈ a.getLast?, (isalpha x || isdigit x || x == underscore) = false) ∨
      (∃ y ∈ b.head?, (isalpha y || isdigit y || y == underscore) = false)) :
    ∃ ta tb, Tokenize a = some ta ∧ Tokenize b = some tb ∧
      Tokenize (a ++ b) = some (ta ++ tb) :=
  ⟨scan a, scan b, Tokenize_eq_scan a, Tokenize_eq_scan b, by
    rw [Tokenize_eq_scan, scan_append_of_boundary a b h]⟩

/-- C13 at `a = "x1="`, `b = "42"`: the last character of `a` is a symbol. -/
theorem Tokenize_append_of_boundary_witness :
    (bytes "x1=" = [] ∨ bytes "42" = [] ∨
      (∃ x ∈ (bytes "x1=").getLast?, (isalpha x || isdigit x || x == underscore) = false) ∨
      (∃ y ∈ (bytes "42").head?, (isalpha y || isdigit y || y == underscore) = false)) ∧
      ∃ ta tb, Tokenize (bytes "x1=") = some ta ∧ Tokenize (bytes "42") = some tb ∧
        Tokenize (bytes "x1=" ++ bytes "42") = some (ta ++ tb) :=
  have h : bytes "x1=" = [] ∨ bytes "42" = [] ∨
      (∃ x ∈ (bytes "x1=").getLast?, (isalpha x || isdigit x || x == underscore) = false) ∨
      (∃ y ∈ (bytes "42").head?, (isalpha y || isdigit y || y == underscore) = false) :=
    Or.inr (Or.inr (Or.inl ⟨61, by decide, by decide⟩))
  ⟨h, Tokenize_append_of_boundary (bytes "x1=") (bytes "42") h⟩

/-- C14 (whitespace insensitivity): for non-empty whitespace-only `w1` and `w2`,
`Tokenize (a ++ w1 ++ b)` and `Tokenize (a ++ w2 ++ b)` both return the tokens of `a`
followed by the tokens of `b`, and `Tokenize (w1 ++ a ++ w2)` returns the tokens of `a`. -/
theorem Tokenize_whitespace_insensitive (a b w1 w2 : List Byte)
    (h1 : w1 ≠ []) (hw1 : ∀ c ∈ w1, c ∈ whitespace)
    (h2 : w2 ≠ []) (hw2 : ∀ c ∈ w2, c ∈ whitespace) :
    ∃ ta tb, Tokenize a = some ta ∧ Tokenize b = some tb ∧
      Tokenize (a ++ w1 ++ b) = some (ta ++ tb) ∧
      Tokenize (a ++ w2 ++ b) = some (ta ++ tb) ∧
      Tokenize (w1 ++ a ++ w2) = some ta := by
  have hs : ∀ w : List Byte, (∀ c ∈ w, c ∈ whitespace) → ∀ c ∈ w, isspace c = true := by
    intro w hw c hc
    rw [isspace_eq_contains]
    simpa using hw c hc
  refine ⟨scan a, scan b, Tokenize_eq_scan a, Tokenize_eq_scan b, ?_, ?_, ?_⟩
  · rw [Tokenize_eq_scan, scan_append_whitespace_append a w1 b (hs w1 hw1) (Or.inl h1)]
  · rw [Tokenize_eq_scan, scan_append_whitespace_append a w2 b (hs w2 hw2) (Or.inl h2)]
  · have e : w1 ++ a ++ w2 = w1 ++ (a ++ w2 ++ []) := by simp
    rw [Tokenize_eq_scan, e, scan_whitespace_append w1 _ (hs w1 hw1),
      scan_append_whitespace_append a w2 [] (hs w2 hw2) (Or.inr rfl), scan_nil,
      List.append_nil]

/-- C14 at `a = "foo"`, `b = "bar"`, `w1 = " "`, `w2 = "\t\n"`. -/
theorem Tokenize_whitespace_insensitive_witness :
    bytes " " ≠ [] ∧ (∀ c ∈ bytes " ", c ∈ whitespace) ∧
      bytes "\t\n" ≠ [] ∧ (∀ c ∈ bytes "\t\n", c ∈ whitespace) ∧
      ∃ ta tb, Tokenize (bytes "foo") = some ta ∧ Tokenize (bytes "bar") = some tb ∧
        Tokenize (bytes "foo" ++ bytes " " ++ bytes "bar") = some (ta ++ tb) ∧
        Tokenize (bytes "foo" ++ bytes "\t\n" ++ bytes "bar") = some (ta ++ tb) ∧
        Tokenize (bytes " " ++ bytes "foo" ++ bytes "\t\n") = some ta :=
  have hw1 : ∀ c ∈ bytes " ", c ∈ whitespace := by decide
  have hw2 : ∀ c ∈ bytes "\t\n", c ∈ whitespace := by decide
  ⟨by decide, hw1, by decide, hw2,
    Tokenize_whitespace_insensitive (bytes "foo") (bytes "bar") (bytes " ") (bytes "\t\n")
      (by decide) hw1 (by decide) hw2⟩

/-- C15: on every input, `token` is empty in the state reached after any number of
complete iterations of the `for` loop, that is at the start of every iteration and at
loop exit; the loop does exit, in such a state; and `Tokenize` equals the same function
with the flush of the whitespace branch and the flush after the loop removed. -/
theorem Tokenize_flush_never_pushes (s : List Byte) :
    (∀ (n : Nat) (st : LoopState), loopIter s n initState = some st → st.token = []) ∧
      (∃ n st, loopIter s n initState = some st ∧ ¬ st.i < s.length ∧
        forLoop s s.length initState = some st ∧ st.token = []) ∧
      Tokenize s = TokenizeNoFlush s := by
  refine ⟨fun n st h => loopIter_token s n initState st rfl h, ?_, ?_⟩
  · have h := forLoop_eq s.length s [] [] (Nat.le_refl _)
    simp only [List.nil_append, List.length_nil] at h
    obtain ⟨n, _, hn, hex⟩ := loopIter_of_forLoop s s.length _ _ h
    exact ⟨n, _, hn, hex, h, rfl⟩
  · rw [Tokenize_eq_scan, TokenizeNoFlush_eq_scan]

/-- C16: on every input `s`, every returned token `t` is a fixed point of the scanner:
`Tokenize t` returns the single token `t`. -/
theorem Tokenize_token_fixed_point (s : List Byte) :
    ∃ ts, Tokenize s = some ts ∧ ∀ t ∈ ts, Tokenize t = some [t] := by
  refine ⟨scan s, Tokenize_eq_scan s, ?_⟩
  intro t ht
  have := scan_kind_append t [] (scan_token_kind s t ht) (by simp)
  rw [Tokenize_eq_scan]
  simpa [scan_nil] using this

end Lexer
